import Mathlib

/-!
Shallow embedding of the `keyphrase` repository (entropy ↔ phrase codec).

Conventions of the embedding:
* Rust `u8` / `u16` / `u32` / `u64` values are modelled as `Nat`, with an
  explicit `% 2 ^ w` at every place where the machine width can matter
  (casts and potentially-overflowing shifts).
* Rust `String` values are modelled as `List Char`; `str::split(" ")` and
  the iterator `join` from `util.rs` are modelled character-by-character.
* Fallible functions return `Except ErrorKind`.
* The word catalogs (`language.rs`) and the hash (`crypto.rs`) are not part
  of the sources; per the spec they are external collaborators, so the
  facade functions take them as parameters (`wl`, `wm`, `sha`), and the
  concrete English catalog entries and SHA-256 are modelled from the spec
  where concrete claims need them.
-/

namespace Keyphrase

/-- Translation of `checksum` from `util.rs`: `source >> (8 - bits)` on `u8`
values, with release-mode wrapping semantics: the `u8` subtraction `8 - bits`
wraps modulo 2^8 and the shift amount of a `u8` shift is masked modulo the
8-bit width, so a shift by 8 (the `bits = 0` case, a debug-mode panic)
returns the source unchanged in release.  The `debug_assert!(bits <= 8)` is
a programmer invariant, captured as a hypothesis in the theorems; for
`1 ≤ bits ≤ 8` this coincides with the plain `source >>> (8 - bits)`
(theorem `checksum_eq_of_le`). -/
def checksum (source : Nat) (bits : Nat) : Nat :=
  source >>> ((8 + 256 - bits % 256) % 256 % 8)

/-- Translation of `Bits11` from `util.rs`: a plain newtype over `u16`,
with no range check. -/
structure Bits11 where
  val : Nat
deriving DecidableEq

/-- Translation of `impl From<u16> for Bits11`: stores the `u16` unchanged
(the `% 65536` renders the `u16` type of the argument). -/
def Bits11.ofU16 (v : Nat) : Bits11 := ⟨v % 65536⟩

/-- Translation of `impl From<Bits11> for u16`: returns the stored value. -/
def Bits11.toU16 (b : Bits11) : Nat := b.val % 65536

/-- Translation of the `BitIter` iterator of `util.rs`, specialised to
`In = u8`, `Out = Bits11` as used by `from_entropy_unchecked`, and fused into
a single pass that returns the collected 11-bit groups together with the
final value of `self.read` (the number of buffered bits left over when the
byte source is exhausted, which `next` then discards by returning `None`).

The Rust iterator keeps `read < 11` between calls to `next`; starting from
the initial state `read = 0` every consumed byte raises `read` by 8 to at
most 18, so at most one 11-bit group is emitted per consumed byte, which is
what this byte-driven formulation does.  The buffer is a `u64`, the emitted
group is cast `as u16`. -/
def bitIterGo : List Nat → Nat → Nat → List Nat × Nat
  | [], _buffer, read => ([], read)
  | b :: rest, buffer, read =>
    let buffer' := (buffer ||| ((b % 256) <<< (64 - (read + 8)))) % 2 ^ 64
    let read' := read + 8
    if 11 ≤ read' then
      let g := (buffer' >>> (64 - 11)) % 65536
      let out := bitIterGo rest ((buffer' <<< 11) % 2 ^ 64) (read' - 11)
      (g :: out.1, out.2)
    else
      bitIterGo rest buffer' read'

/-- The groups-with-leftover run of `BitIter` from its initial state
(`buffer = 0`, `read = 0`), as created by `.bits()` in
`from_entropy_unchecked`. -/
def bitIterRun (source : List Nat) : List Nat × Nat :=
  bitIterGo source 0 0

/-- Translation of `BitWriter` from `util.rs`.  `remainder` is a `u32`,
`inner` the byte vector. -/
structure BitWriter where
  offset : Nat
  remainder : Nat
  inner : List Nat
deriving DecidableEq

/-- Translation of `BitWriter::with_capacity` (the capacity only preallocates,
so the abstract state is the empty writer). -/
def BitWriter.empty : BitWriter := ⟨0, 0, []⟩

/-- Fuel-indexed translation of the `while self.offset >= 8` loop in
`BitWriter::push`: each iteration appends `(remainder >> 24) as u8` and
shifts the `u32` remainder left by 8.  The loop runs `offset / 8` times,
so fuel `offset` always suffices (`bwFlush` below). -/
def bwFlushF : Nat → BitWriter → BitWriter
  | 0, w => w
  | f + 1, w =>
    if 8 ≤ w.offset then
      bwFlushF f ⟨w.offset - 8, (w.remainder <<< 8) % 2 ^ 32,
                  w.inner ++ [(w.remainder >>> 24) % 256]⟩
    else
      w

/-- The `while self.offset >= 8` loop of `BitWriter::push`, run to
completion. -/
def bwFlush (w : BitWriter) : BitWriter := bwFlushF w.offset w

/-- Translation of `BitWriter::push::<Bits11>`: `shift = 32 - 11 = 21`,
`remainder |= (source.bits() << shift) >> offset` (in `u32`), then
`offset += 11` and the flush loop. -/
def BitWriter.push (w : BitWriter) (source : Bits11) : BitWriter :=
  bwFlush ⟨w.offset + 11,
           (w.remainder ||| ((((source.val % 65536) <<< 21) % 2 ^ 32) >>> w.offset)) % 2 ^ 32,
           w.inner⟩

/-- Translation of `BitWriter::len`. -/
def BitWriter.len (w : BitWriter) : Nat := w.inner.length * 8 + w.offset

/-- Translation of `BitWriter::into_bytes`: flushes the partially filled
final byte, if any. -/
def BitWriter.intoBytes (w : BitWriter) : List Nat :=
  if w.offset ≠ 0 then w.inner ++ [(w.remainder >>> 24) % 256] else w.inner

/-- Modelled from the spec: the `KeyPhraseType` enumeration
(`keyphrase_type.rs` is not among the sources).  One variant per phrase
length 12/15/18/21/24 words (spec §3). -/
inductive KeyPhraseType where
  | words12 | words15 | words18 | words21 | words24
deriving DecidableEq

/-- Translation of `ErrorKind` from `error.rs`. -/
inductive ErrorKind where
  | InvalidChecksum : ErrorKind
  | InvalidWord : ErrorKind
  | InvalidKeysize : Nat → ErrorKind
  | InvalidWordLength : Nat → ErrorKind
  | InvalidEntropyLength : Nat → KeyPhraseType → ErrorKind
deriving DecidableEq

/-- Modelled from the spec: `entropy_bits` of each phrase length
(spec §3: `entropy_bits ∈ {128,160,192,224,256}`). -/
def KeyPhraseType.entropyBits : KeyPhraseType → Nat
  | .words12 => 128
  | .words15 => 160
  | .words18 => 192
  | .words21 => 224
  | .words24 => 256

/-- Modelled from the spec: `checksum_bits = entropy_bits / 32` (spec §3). -/
def KeyPhraseType.checksumBits (t : KeyPhraseType) : Nat := t.entropyBits / 32

/-- Modelled from the spec: `total_bits = entropy_bits + checksum_bits`
(spec §3). -/
def KeyPhraseType.totalBits (t : KeyPhraseType) : Nat :=
  t.entropyBits + t.checksumBits

/-- Modelled from the spec: `for_key_size` / `for_entropy_bit_length`
(spec §4.1: fails with `InvalidKeysize` unless `bits` is exactly one of the
five entropy-bit values). -/
def KeyPhraseType.forKeySize (bits : Nat) : Except ErrorKind KeyPhraseType :=
  if bits = 128 then .ok .words12
  else if bits = 160 then .ok .words15
  else if bits = 192 then .ok .words18
  else if bits = 224 then .ok .words21
  else if bits = 256 then .ok .words24
  else .error (.InvalidKeysize bits)

/-- Modelled from the spec: `for_word_count` (spec §4.1: fails with
`InvalidWordLength` unless `n` is exactly one of {12,15,18,21,24}). -/
def KeyPhraseType.forWordCount (n : Nat) : Except ErrorKind KeyPhraseType :=
  if n = 12 then .ok .words12
  else if n = 15 then .ok .words15
  else if n = 18 then .ok .words18
  else if n = 21 then .ok .words21
  else if n = 24 then .ok .words24
  else .error (.InvalidWordLength n)

/-- Decidable equality for `Except`, so that concrete runs of the fallible
operations can be checked by `decide`. -/
instance {ε α : Type} [DecidableEq ε] [DecidableEq α] : DecidableEq (Except ε α) := fun a b =>
  match a, b with
  | .ok x, .ok y =>
    if h : x = y then isTrue (by rw [h]) else isFalse (by intro hc; cases hc; exact h rfl)
  | .error x, .error y =>
    if h : x = y then isTrue (by rw [h]) else isFalse (by intro hc; cases hc; exact h rfl)
  | .ok _, .error _ => isFalse (by intro hc; cases hc)
  | .error _, .ok _ => isFalse (by intro hc; cases hc)

/-- Translation of the `join(" ")` from `IterExt` in `util.rs` as used on the
word iterator: first word, then `" " ++ word` for every further word. -/
def joinWords : List (List Char) → List Char
  | [] => []
  | [w] => w
  | w :: ws => w ++ ' ' :: joinWords ws

/-- Translation of Rust `str::split(" ")` (single ASCII space pattern) as
used by `phrase_to_entropy`: every occurrence of `' '` separates two tokens,
so leading, trailing, and doubled spaces produce empty tokens, and the empty
input produces one empty token. -/
def splitSpace : List Char → List (List Char)
  | [] => [[]]
  | c :: rest =>
    if c = ' ' then
      [] :: splitSpace rest
    else
      match splitSpace rest with
      | w :: ws => (c :: w) :: ws
      | [] => [[c]]

/-- Translation of the `KeyPhrase` struct (`keyphrase.rs`).  The `lang` field
is represented by the catalog parameters of the functions below, since the
catalogs themselves live outside the sources. -/
structure KeyPhrase where
  phrase : List Char
  entropy : List Nat
deriving DecidableEq

/-- Translation of `KeyPhrase::from_entropy_unchecked`: append the first
hash byte to the entropy, regroup into 11-bit values, map each group to its
catalog word (`wl`), and join with single spaces.  `sha` models
`sha256_first_byte` from the absent `crypto.rs`; the `% 256` renders its
`u8` return type. -/
def fromEntropyUnchecked (wl : Nat → List Char) (sha : List Nat → Nat)
    (entropy : List Nat) : KeyPhrase :=
  let checksumByte := sha entropy % 256
  let groups := (bitIterRun (entropy ++ [checksumByte])).1
  { phrase := joinWords (groups.map wl), entropy := entropy }

/-- Translation of `KeyPhrase::from_entropy`: validate the entropy size,
then delegate. -/
def fromEntropy (wl : Nat → List Char) (sha : List Nat → Nat)
    (entropy : List Nat) : Except ErrorKind KeyPhrase :=
  match KeyPhraseType.forKeySize (entropy.length * 8) with
  | .error e => .error e
  | .ok _ => .ok (fromEntropyUnchecked wl sha entropy)

/-- Translation of the `for word in phrase.split(" ")` loop of
`phrase_to_entropy`: look every token up in the word map (`wm`, modelling
`WordMap::get_bits`, which fails with `InvalidWord` on a miss) and push its
11-bit index into the `BitWriter`. -/
def pushWords (wm : List Char → Option Nat) (bits : BitWriter) :
    List (List Char) → Except ErrorKind BitWriter
  | [] => .ok bits
  | w :: ws =>
    match wm w with
    | none => .error .InvalidWord
    | some g => pushWords wm (bits.push ⟨g⟩) ws

/-- Translation of `KeyPhrase::phrase_to_entropy`.  The byte index
`entropy[entropy_bytes]` is rendered with `getD ... 0`; on every path that
reaches it the decoded buffer has exactly `entropy_bytes + 1` bytes (claim
C9 proves the corresponding `debug_assert!`).  `truncate` becomes `take`. -/
def phraseToEntropy (wm : List Char → Option Nat) (sha : List Nat → Nat)
    (phrase : List Char) : Except ErrorKind (List Nat) :=
  match pushWords wm BitWriter.empty (splitSpace phrase) with
  | .error err => .error err
  | .ok bits =>
    match KeyPhraseType.forWordCount (bits.len / 11) with
    | .error err => .error err
    | .ok mtype =>
      let entropy0 := bits.intoBytes
      let entropyBytes := mtype.entropyBits / 8
      let actualChecksum := checksum (entropy0.getD entropyBytes 0) mtype.checksumBits
      let entropy := entropy0.take entropyBytes
      let checksumByte := sha entropy % 256
      let expectedChecksum := checksum checksumByte mtype.checksumBits
      if actualChecksum = expectedChecksum then
        .ok entropy
      else
        .error .InvalidChecksum

/-- Translation of `KeyPhrase::from_phrase`: decode and validate, storing
the phrase text exactly as given. -/
def fromPhrase (wm : List Char → Option Nat) (sha : List Nat → Nat)
    (phrase : List Char) : Except ErrorKind KeyPhrase :=
  match phraseToEntropy wm sha phrase with
  | .error e => .error e
  | .ok entropy => .ok { phrase := phrase, entropy := entropy }

/-- Translation of `KeyPhrase::validate`. -/
def validate (wm : List Char → Option Nat) (sha : List Nat → Nat)
    (phrase : List Char) : Except ErrorKind Unit :=
  match phraseToEntropy wm sha phrase with
  | .error e => .error e
  | .ok _ => .ok ()

/-- Rust `{:x}` on a `u8`: minimal lowercase hex digits (no width, no
padding), as emitted per byte by the `fmt::LowerHex` impls of `KeyPhrase`
(`keyphrase.rs`) and `Seed` (`seed.rs`). -/
def lowerHexU8 (b : Nat) : List Char :=
  let digit := fun (n : Nat) =>
    if n < 10 then Char.ofNat (48 + n) else Char.ofNat (87 + n)
  if b % 256 < 16 then [digit (b % 256)]
  else [digit (b % 256 / 16), digit (b % 256 % 16)]

/-- Rust `{:X}` on a `u8`: minimal uppercase hex digits. -/
def upperHexU8 (b : Nat) : List Char :=
  let digit := fun (n : Nat) =>
    if n < 10 then Char.ofNat (48 + n) else Char.ofNat (55 + n)
  if b % 256 < 16 then [digit (b % 256)]
  else [digit (b % 256 / 16), digit (b % 256 % 16)]

/-- Translation of the `fmt::LowerHex` impls of `KeyPhrase` and `Seed`:
optional `0x` prefix, then `write!(f, "{:x}", byte)` per byte. -/
def lowerHexFmt (alternate : Bool) (bytes : List Nat) : List Char :=
  (if alternate then ['0', 'x'] else []) ++ bytes.foldr (fun b acc => lowerHexU8 b ++ acc) []

/-- Translation of the `fmt::UpperHex` impls of `KeyPhrase` and `Seed`. -/
def upperHexFmt (alternate : Bool) (bytes : List Nat) : List Char :=
  (if alternate then ['0', 'x'] else []) ++ bytes.foldr (fun b acc => upperHexU8 b ++ acc) []

/-- Modelled from the spec: 32-bit right rotation, for the SHA-256 hash that
`crypto.rs` (absent from the sources) provides as `sha256_first_byte`. -/
def rotr32 (n x : Nat) : Nat :=
  ((x >>> n) ||| ((x <<< (32 - n)) % 2 ^ 32))

/-- Modelled from the spec: the SHA-256 round constants of FIPS 180-4
(in decimal). -/
def shaK : List Nat :=
  [1116352408, 1899447441, 3049323471, 3921009573, 961987163,
   1508970993, 2453635748, 2870763221, 3624381080, 310598401,
   607225278, 1426881987, 1925078388, 2162078206, 2614888103,
   3248222580, 3835390401, 4022224774, 264347078, 604807628,
   770255983, 1249150122, 1555081692, 1996064986, 2554220882,
   2821834349, 2952996808, 3210313671, 3336571891, 3584528711,
   113926993, 338241895, 666307205, 773529912, 1294757372,
   1396182291, 1695183700, 1986661051, 2177026350, 2456956037,
   2730485921, 2820302411, 3259730800, 3345764771, 3516065817,
   3600352804, 4094571909, 275423344, 430227734, 506948616,
   659060556, 883997877, 958139571, 1322822218, 1537002063,
   1747873779, 1955562222, 2024104815, 2227730452, 2361852424,
   2428436474, 2756734187, 3204031479, 3329325298]

/-- Modelled from the spec: the SHA-256 initial hash value of FIPS 180-4
(in decimal). -/
def shaH0 : List Nat :=
  [1779033703, 3144134277, 1013904242, 2773480762, 1359893119,
   2600822924, 528734635, 1541459225]

/-- Modelled from the spec: one message-schedule extension step of SHA-256. -/
def shaStep (w : List Nat) : List Nat :=
  let i := w.length
  let x15 := w.getD (i - 15) 0
  let x2 := w.getD (i - 2) 0
  let s0 := (rotr32 7 x15) ^^^ (rotr32 18 x15) ^^^ (x15 >>> 3)
  let s1 := (rotr32 17 x2) ^^^ (rotr32 19 x2) ^^^ (x2 >>> 10)
  w ++ [(w.getD (i - 16) 0 + s0 + w.getD (i - 7) 0 + s1) % 2 ^ 32]

/-- Modelled from the spec: one SHA-256 compression round on the 8-word
state, where `kw` is the precomputed `K[i] + W[i] mod 2^32`. -/
def shaRound (st : List Nat) (kw : Nat) : List Nat :=
  match st with
  | [a, b, c, d, e, f, g, h] =>
    let bigS1 := (rotr32 6 e) ^^^ (rotr32 11 e) ^^^ (rotr32 25 e)
    let ch := (e &&& f) ^^^ ((e ^^^ 0xffffffff) &&& g)
    let t1 := (h + bigS1 + ch + kw) % 2 ^ 32
    let bigS0 := (rotr32 2 a) ^^^ (rotr32 13 a) ^^^ (rotr32 22 a)
    let mj := (a &&& b) ^^^ (a &&& c) ^^^ (b &&& c)
    let t2 := (bigS0 + mj) % 2 ^ 32
    [(t1 + t2) % 2 ^ 32, a, b, c, (d + t1) % 2 ^ 32, e, f, g]
  | other => other

/-- Modelled from the spec: SHA-256 compression of one 16-word block. -/
def shaCompress (h : List Nat) (block : List Nat) : List Nat :=
  let w := (List.range 48).foldl (fun acc _ => shaStep acc) block
  let st := (List.zipWith (fun k wi => (k + wi) % 2 ^ 32) shaK w).foldl shaRound h
  List.zipWith (fun x y => (x + y) % 2 ^ 32) h st

/-- Modelled from the spec: big-endian grouping of bytes into 32-bit words. -/
def bytesToWords : List Nat → List Nat
  | b0 :: b1 :: b2 :: b3 :: r =>
    (((b0 % 256) <<< 24) ||| ((b1 % 256) <<< 16) ||| ((b2 % 256) <<< 8) ||| (b3 % 256))
      :: bytesToWords r
  | _ => []

/-- Modelled from the spec: SHA-256 padding — `0x80`, zeros to 56 mod 64,
then the 64-bit big-endian bit length. -/
def sha256Pad (m : List Nat) : List Nat :=
  let padZeros := (64 + 55 - (m.length % 64)) % 64
  let bitLen := 8 * m.length
  m ++ 0x80 :: List.replicate padZeros 0 ++
    [(bitLen >>> 56) % 256, (bitLen >>> 48) % 256, (bitLen >>> 40) % 256,
     (bitLen >>> 32) % 256, (bitLen >>> 24) % 256, (bitLen >>> 16) % 256,
     (bitLen >>> 8) % 256, bitLen % 256]

/-- Modelled from the spec: fold SHA-256 compression over the 64-byte
blocks of a padded message (fuel-indexed; fuel = byte count suffices). -/
def sha256Loop : Nat → List Nat → List Nat → List Nat
  | 0, h, _ => h
  | fuel + 1, h, m =>
    if m = [] then h
    else sha256Loop fuel (shaCompress h (bytesToWords (m.take 64))) (m.drop 64)

/-- Modelled from the spec: the full SHA-256 digest of a byte sequence, as
32 bytes. -/
def sha256 (m : List Nat) : List Nat :=
  let padded := sha256Pad m
  let h := sha256Loop padded.length shaH0 padded
  h.foldr (fun w acc =>
    ((w >>> 24) % 256) :: ((w >>> 16) % 256) :: ((w >>> 8) % 256) :: (w % 256) :: acc) []

/-- Modelled from the spec: `sha256_first_byte` from the absent
`crypto.rs` — the first byte of the SHA-256 digest. -/
def sha256First (m : List Nat) : Nat := (sha256 m).headD 0

/-- Modelled from the spec: the entries of the English word catalog
(`language.rs` and `langs/english.txt` are not among the sources) that the
spec's literal test vector exercises, as word/11-bit-index pairs of the
standard catalog.  The spec describes the catalog as a fixed bijection
between 2048 words and indices 0–2047 (spec §3); only these twelve entries
are observable from the spec's data. -/
def englishPairs : List (List Char × Nat) :=
  [(('c' :: "rop".toList), 415), (('c' :: "ash".toList), 282),
   (('u' :: "nable".toList), 1890), (('i' :: "nsane".toList), 935),
   (('e' :: "ight".toList), 567), (('f' :: "aith".toList), 656),
   (('i' :: "nflict".toList), 923), (('r' :: "oute".toList), 1508),
   (('f' :: "rame".toList), 740), (('l' :: "oud".toList), 1057),
   (('b' :: "ox".toList), 212), (('v' :: "ibrant".toList), 1947)]

/-- Modelled from the spec: `WordList::get_word` for the English catalog,
restricted to the spec-observable entries. -/
def englishWordAt (i : Nat) : List Char :=
  match englishPairs.find? (fun p => p.2 = i) with
  | some p => p.1
  | none => []

/-- Modelled from the spec: `WordMap::get_bits` for the English catalog,
restricted to the spec-observable entries (`none` models the
`InvalidWord` miss). -/
def englishIndexOf (w : List Char) : Option Nat :=
  match englishPairs.find? (fun p => p.1 = w) with
  | some p => some p.2
  | none => none

/-- The sixteen entropy bytes `33E46BB13A746EA41CDDE45C90846A79` of the
spec's literal vector. -/
def entropyVec : List Nat :=
  [0x33, 0xE4, 0x6B, 0xB1, 0x3A, 0x74, 0x6E, 0xA4,
   0x1C, 0xDD, 0xE4, 0x5C, 0x90, 0x84, 0x6A, 0x79]

/-- The phrase of the spec's literal vector. -/
def phraseVec : List Char :=
  ("crop cash unable insane eight faith inflict route frame loud box vibrant").toList

/-- Specification layer: the most-significant-bit-first bit vector of width
`w` of a natural number (the reference semantics both bit-stream components
are verified against). -/
def natBits : Nat → Nat → List Bool
  | 0, _ => []
  | w + 1, n => natBits w (n / 2) ++ [decide (n % 2 = 1)]

/-- Specification layer: the number denoted by a most-significant-bit-first
bit vector. -/
def bitsToNat (l : List Bool) : Nat :=
  l.foldl (fun a b => 2 * a + (if b then 1 else 0)) 0

/-- Specification layer: the big-endian bit stream of a byte sequence. -/
def bytesBits : List Nat → List Bool
  | [] => []
  | b :: r => natBits 8 b ++ bytesBits r

/-- Specification layer: the big-endian bit stream of a sequence of 11-bit
groups. -/
def groupsBits : List Nat → List Bool
  | [] => []
  | g :: r => natBits 11 g ++ groupsBits r

/-- Folding `BitWriter::push` over a list of already-looked-up 11-bit
groups (the success path of the `phrase_to_entropy` word loop). -/
def pushGroups (bw : BitWriter) : List Nat → BitWriter
  | [] => bw
  | g :: gs => pushGroups (bw.push ⟨g⟩) gs

/-- A minimal word catalog satisfying the spec's catalog interface (used to
instantiate the universally-quantified theorems at a concrete input): index
`i` is written as `i + 1` repetitions of `a`. -/
def unaryWordAt (i : Nat) : List Char := List.replicate (i + 1) 'a'

/-- The reverse lookup of `unaryWordAt`, failing on the empty token and on
anything that is not a word of the catalog. -/
def unaryIndexOf (w : List Char) : Option Nat :=
  if w ≠ [] ∧ w.length ≤ 2048 ∧ w.all (fun c => c = 'a') then some (w.length - 1)
  else none

/-! ### Arithmetic helper lemmas for the bit-shuffling registers -/

/-- Bit-disjoint `or` is addition: merging `s` fresh low bits into a shifted
accumulator. -/
theorem or_merge (v b e s : Nat) (hb : b < 2 ^ s) :
    (v * 2 ^ (e + s)) ||| (b * 2 ^ e) = (v * 2 ^ s + b) * 2 ^ e := by
  have hlt : b * 2 ^ e < 2 ^ (e + s) := by
    rw [pow_add, Nat.mul_comm (2 ^ e) (2 ^ s)]
    exact (Nat.mul_lt_mul_right (Nat.two_pow_pos e)).mpr hb
  have h := Nat.mul_add_lt_is_or (i := e + s) hlt v
  rw [Nat.mul_comm (2 ^ (e + s)) v] at h
  rw [← h, pow_add]
  ring

/-- A value of `s` bits shifted up by `p` bits stays below `2 ^ (s + p)`. -/
theorem mul_pow_lt (x s p m : Nat) (hx : x < 2 ^ s) (hm : m = s + p) :
    x * 2 ^ p < 2 ^ m := by
  subst hm
  rw [pow_add]
  exact (Nat.mul_lt_mul_right (Nat.two_pow_pos p)).mpr hx

/-- Dividing a shifted value by a larger power of two. -/
theorem mul_pow_div (v p d q : Nat) (hq : q = p + d) :
    v * 2 ^ p / 2 ^ q = v / 2 ^ d := by
  subst hq
  rw [pow_add, ← Nat.div_div_eq_div_mul, Nat.mul_div_cancel _ (Nat.two_pow_pos p)]

/-- Dividing a shifted value by a smaller power of two. -/
theorem mul_pow_div_short (v p d q : Nat) (hp : p = q + d) :
    v * 2 ^ p / 2 ^ q = v * 2 ^ d := by
  subst hp
  rw [pow_add, show v * (2 ^ q * 2 ^ d) = v * 2 ^ d * 2 ^ q by ring]
  exact Nat.mul_div_cancel _ (Nat.two_pow_pos q)

/-- Reducing a shifted sum modulo a power of two drops the high part. -/
theorem mod_shift (hi lo a c m : Nat) (hlo : lo < 2 ^ a) (hm : m = a + c) :
    (hi * 2 ^ a + lo) * 2 ^ c % 2 ^ m = lo * 2 ^ c := by
  subst hm
  have h1 : (hi * 2 ^ a + lo) * 2 ^ c = 2 ^ (a + c) * hi + lo * 2 ^ c := by
    rw [pow_add]; ring
  rw [h1, Nat.mul_add_mod, Nat.mod_eq_of_lt (mul_pow_lt lo a c (a + c) hlo rfl)]

/-- Quotient bound for right shifts. -/
theorem div_pow_lt (x d s : Nat) (hx : x < 2 ^ (d + s)) :
    x / 2 ^ d < 2 ^ s := by
  rw [Nat.div_lt_iff_lt_mul (Nat.two_pow_pos d)]
  rw [pow_add] at hx
  calc x < 2 ^ d * 2 ^ s := hx
    _ = 2 ^ s * 2 ^ d := Nat.mul_comm _ _

/-- On the domain the `debug_assert` admits minus the overflowing `bits = 0`
case, the wrapping `checksum` is the plain right shift by `8 - bits`. -/
theorem checksum_eq_of_le (source bits : Nat) (h1 : 1 ≤ bits) (h2 : bits ≤ 8) :
    checksum source bits = source >>> (8 - bits) := by
  rw [checksum, show (8 + 256 - bits % 256) % 256 % 8 = 8 - bits by omega]

/-! ### The bit-vector reference semantics -/

theorem natBits_length (w : Nat) : ∀ n, (natBits w n).length = w := by
  induction w with
  | zero => intro n; rfl
  | succ w ih => intro n; simp [natBits, ih]

theorem natBits_append (b : Nat) : ∀ a hi lo, lo < 2 ^ b →
    natBits (a + b) (hi * 2 ^ b + lo) = natBits a hi ++ natBits b lo := by
  induction b with
  | zero =>
    intro a hi lo hlo
    interval_cases lo
    simp [natBits]
  | succ b ih =>
    intro a hi lo hlo
    have h1 : a + (b + 1) = (a + b) + 1 := by omega
    rw [h1]
    show natBits (a + b) ((hi * 2 ^ (b + 1) + lo) / 2) ++ _ = _
    have h2 : (hi * 2 ^ (b + 1) + lo) / 2 = hi * 2 ^ b + lo / 2 := by
      rw [pow_succ, show hi * (2 ^ b * 2) = 2 * (hi * 2 ^ b) by ring]
      omega
    have h3 : (hi * 2 ^ (b + 1) + lo) % 2 = lo % 2 := by
      rw [pow_succ, show hi * (2 ^ b * 2) = 2 * (hi * 2 ^ b) by ring]
      omega
    rw [h2, h3, ih a hi (lo / 2) (by rw [pow_succ] at hlo; omega)]
    simp [natBits]

theorem bitsToNat_natBits (w : Nat) : ∀ n, n < 2 ^ w → bitsToNat (natBits w n) = n := by
  induction w with
  | zero =>
    intro n hn
    interval_cases n
    rfl
  | succ w ih =>
    intro n hn
    show bitsToNat (natBits w (n / 2) ++ [decide (n % 2 = 1)]) = n
    unfold bitsToNat
    rw [List.foldl_append]
    have := ih (n / 2) (by rw [pow_succ] at hn; omega)
    unfold bitsToNat at this
    rw [this]
    rcases Nat.mod_two_eq_zero_or_one n with h | h <;> simp [h] <;> omega

theorem natBits_inj {w m n : Nat} (hm : m < 2 ^ w) (hn : n < 2 ^ w)
    (h : natBits w m = natBits w n) : m = n := by
  have := bitsToNat_natBits w m hm
  rw [h, bitsToNat_natBits w n hn] at this
  omega

theorem bytesBits_append (xs ys : List Nat) :
    bytesBits (xs ++ ys) = bytesBits xs ++ bytesBits ys := by
  induction xs with
  | nil => rfl
  | cons b r ih => simp [bytesBits, ih]

theorem bytesBits_length (xs : List Nat) : (bytesBits xs).length = 8 * xs.length := by
  induction xs with
  | nil => rfl
  | cons b r ih => simp [bytesBits, natBits_length, ih]; omega

theorem groupsBits_length (gs : List Nat) : (groupsBits gs).length = 11 * gs.length := by
  induction gs with
  | nil => rfl
  | cons g r ih => simp [groupsBits, natBits_length, ih]; omega

theorem bytesBits_inj : ∀ xs ys : List Nat, xs.length = ys.length →
    (∀ b ∈ xs, b < 256) → (∀ b ∈ ys, b < 256) →
    bytesBits xs = bytesBits ys → xs = ys := by
  intro xs
  induction xs with
  | nil =>
    intro ys hlen _ _ _
    cases ys with
    | nil => rfl
    | cons y r => simp at hlen
  | cons x r ih =>
    intro ys hlen hx hy heq
    cases ys with
    | nil => simp at hlen
    | cons y s =>
      simp only [bytesBits] at heq
      have h8 : (natBits 8 x).length = (natBits 8 y).length := by
        rw [natBits_length, natBits_length]
      obtain ⟨h1, h2⟩ := List.append_inj heq h8
      have hxy : x = y := by
        exact natBits_inj (by exact hx x (by simp)) (by exact hy y (by simp)) h1
      have := ih s (by simpa using hlen) (fun b hb => hx b (by simp [hb]))
        (fun b hb => hy b (by simp [hb])) h2
      rw [hxy, this]

/-! ### Correctness of the bit-stream encoder (`BitIter`) -/

/-- The run of the byte-to-11-bit-group iterator emits, bit for bit, the
longest multiple-of-11 prefix of the big-endian bit stream of its input;
the remaining bits stay in the buffer (`v'`) and are dropped.  The state
`(v, read)` with `buffer = v * 2 ^ (64 - read)` covers every state the
iterator reaches from `(0, 0)`. -/
theorem bitIterGo_spec : ∀ (source : List Nat) (v read : Nat),
    read < 11 → v < 2 ^ read → (∀ b ∈ source, b < 256) →
    ∃ v',
      v' < 2 ^ ((read + 8 * source.length) % 11) ∧
      (bitIterGo source (v * 2 ^ (64 - read)) read).2 = (read + 8 * source.length) % 11 ∧
      (bitIterGo source (v * 2 ^ (64 - read)) read).1.length
        = (read + 8 * source.length) / 11 ∧
      (∀ g ∈ (bitIterGo source (v * 2 ^ (64 - read)) read).1, g < 2048) ∧
      groupsBits (bitIterGo source (v * 2 ^ (64 - read)) read).1
          ++ natBits ((read + 8 * source.length) % 11) v'
        = natBits read v ++ bytesBits source := by
  intro source
  induction source with
  | nil =>
    intro v read hr hv _
    have hm : (read + 8 * ([] : List Nat).length) % 11 = read := by
      simp [Nat.mod_eq_of_lt hr]
    refine ⟨v, ?_, ?_, ?_, ?_, ?_⟩
    · rw [hm]; exact hv
    · simpa [bitIterGo] using hm.symm ▸ rfl
    · simp [bitIterGo, Nat.div_eq_of_lt hr]
    · simp [bitIterGo]
    · simp [bitIterGo, groupsBits, bytesBits, Nat.mod_eq_of_lt hr]
  | cons b rest ih =>
    intro v read hr hv hbs
    have hb : b < 256 := hbs b (by simp)
    have hb8 : b < 2 ^ 8 := by rw [show (2 : Nat) ^ 8 = 256 by norm_num]; exact hb
    have hrest : ∀ x ∈ rest, x < 256 := fun x hx => hbs x (by simp [hx])
    have hp8 : (2 : Nat) ^ (read + 8) = 2 ^ read * 256 := by
      rw [pow_add]; norm_num
    have hv1 : v * 2 ^ 8 + b < 2 ^ (read + 8) := by
      rw [show (2 : Nat) ^ 8 = 256 by norm_num, hp8]
      omega
    have hbuf : ((v * 2 ^ (64 - read)) ||| ((b % 256) <<< (64 - (read + 8)))) % 2 ^ 64
        = (v * 2 ^ 8 + b) * 2 ^ (64 - (read + 8)) := by
      rw [Nat.mod_eq_of_lt hb, Nat.shiftLeft_eq,
        show 64 - read = (64 - (read + 8)) + 8 by omega,
        or_merge v b (64 - (read + 8)) 8 hb8]
      exact Nat.mod_eq_of_lt (mul_pow_lt _ (read + 8) _ 64 hv1 (by omega))
    rcases Nat.lt_or_ge read 3 with h3 | h3
    · -- no emission: read + 8 < 11
      have hstep : bitIterGo (b :: rest) (v * 2 ^ (64 - read)) read
          = bitIterGo rest ((v * 2 ^ 8 + b) * 2 ^ (64 - (read + 8))) (read + 8) := by
        simp only [bitIterGo, hbuf]
        rw [if_neg (by omega)]
      obtain ⟨v', h1, h2, h3', h4, h5⟩ := ih (v * 2 ^ 8 + b) (read + 8) (by omega) hv1 hrest
      have hn : (read + 8 + 8 * rest.length) = read + 8 * (b :: rest).length := by
        simp; omega
      refine ⟨v', ?_, ?_, ?_, ?_, ?_⟩
      · rw [← hn]; exact h1
      · rw [hstep, ← hn]; exact h2
      · rw [hstep, ← hn]; exact h3'
      · rw [hstep]; exact h4
      · rw [hstep, ← hn, h5,
          natBits_append 8 read v b hb8]
        simp [bytesBits]
    · -- one emission: 11 ≤ read + 8 ≤ 18
      set v1 := v * 2 ^ 8 + b with hv1def
      have hlo : v1 % 2 ^ (read - 3) < 2 ^ (read - 3) :=
        Nat.mod_lt _ (Nat.two_pow_pos _)
      have hhi : v1 / 2 ^ (read - 3) < 2 ^ 11 := by
        apply div_pow_lt
        rw [show read - 3 + 11 = read + 8 by omega]
        exact hv1
      have hg : ((v1 * 2 ^ (64 - (read + 8))) >>> (64 - 11)) % 65536
          = v1 / 2 ^ (read - 3) := by
        rw [Nat.shiftRight_eq_div_pow,
          mul_pow_div v1 (64 - (read + 8)) (read - 3) (64 - 11) (by omega)]
        exact Nat.mod_eq_of_lt (lt_trans hhi (by norm_num))
      have hsplit : v1 = v1 / 2 ^ (read - 3) * 2 ^ (read - 3) + v1 % 2 ^ (read - 3) := by
        rw [Nat.mul_comm]
        exact (Nat.div_add_mod v1 (2 ^ (read - 3))).symm
      have hbuf2 : ((v1 * 2 ^ (64 - (read + 8))) <<< 11) % 2 ^ 64
          = (v1 % 2 ^ (read - 3)) * 2 ^ (64 - (read - 3)) := by
        rw [Nat.shiftLeft_eq, mul_assoc, ← pow_add]
        conv_lhs => rw [hsplit]
        rw [mod_shift (v1 / 2 ^ (read - 3)) (v1 % 2 ^ (read - 3)) (read - 3)
          (64 - (read + 8) + 11) 64 hlo (by omega),
          show 64 - (read + 8) + 11 = 64 - (read - 3) by omega]
      have hstep : bitIterGo (b :: rest) (v * 2 ^ (64 - read)) read
          = ((v1 / 2 ^ (read - 3)) ::
              (bitIterGo rest ((v1 % 2 ^ (read - 3)) * 2 ^ (64 - (read - 3))) (read + 8 - 11)).1,
             (bitIterGo rest ((v1 % 2 ^ (read - 3)) * 2 ^ (64 - (read - 3))) (read + 8 - 11)).2) := by
        simp only [bitIterGo, hbuf]
        rw [if_pos (by omega), hg, hbuf2]
      rw [show read + 8 - 11 = read - 3 by omega] at hstep
      obtain ⟨v', h1, h2, h3', h4, h5⟩ := ih (v1 % 2 ^ (read - 3)) (read - 3) (by omega) hlo hrest
      have hn1 : (read - 3 + 8 * rest.length) % 11 = (read + 8 * (b :: rest).length) % 11 := by
        simp only [List.length_cons]
        omega
      have hn2 : (read - 3 + 8 * rest.length) / 11 + 1 = (read + 8 * (b :: rest).length) / 11 := by
        simp only [List.length_cons]
        omega
      refine ⟨v', ?_, ?_, ?_, ?_, ?_⟩
      · rw [← hn1]; exact h1
      · rw [hstep]; rw [← hn1]; exact h2
      · rw [hstep]; simp only [List.length_cons]; rw [h3']; exact hn2
      · rw [hstep]
        intro g hgmem
        rcases List.mem_cons.mp hgmem with hgm | hgm
        · rw [hgm]
          calc v1 / 2 ^ (read - 3) < 2 ^ 11 := hhi
            _ = 2048 := by norm_num
        · exact h4 g hgm
      · rw [hstep]
        show natBits 11 (v1 / 2 ^ (read - 3)) ++ _ ++ _ = _
        rw [List.append_assoc, ← hn1, h5, ← List.append_assoc,
          ← natBits_append (read - 3) 11 (v1 / 2 ^ (read - 3)) (v1 % 2 ^ (read - 3)) hlo,
          show 11 + (read - 3) = read + 8 by omega,
          ← hsplit, hv1def, natBits_append 8 read v b hb8]
        simp [bytesBits]

/-! ### Correctness of the bit-stream decoder (`BitWriter`) -/

/-- The flush loop does nothing once fewer than 8 bits are buffered. -/
theorem bwFlushF_stop : ∀ (f : Nat) (w : BitWriter), w.offset < 8 → bwFlushF f w = w := by
  intro f w h
  cases f with
  | zero => rfl
  | succ f => simp only [bwFlushF]; rw [if_neg (by omega)]

/-- The flush loop preserves the accumulated bit count. -/
theorem bwFlushF_len : ∀ (f : Nat) (w : BitWriter), (bwFlushF f w).len = w.len := by
  intro f
  induction f with
  | zero => intro w; rfl
  | succ f ih =>
    intro w
    simp only [bwFlushF]
    split
    · rw [ih]
      simp only [BitWriter.len, List.length_append, List.length_cons, List.length_nil]
      omega
    · rfl

/-- Functional description of the flush loop on a well-formed register:
it moves every full byte from the register into the byte buffer, most
significant first. -/
theorem bwFlushF_spec : ∀ (f off v : Nat) (inner : List Nat),
    v < 2 ^ off → off ≤ 8 * f + 7 → off ≤ 24 →
    ∃ bs, bwFlushF f ⟨off, v * 2 ^ (32 - off), inner⟩
        = ⟨off % 8, (v % 2 ^ (off % 8)) * 2 ^ (32 - off % 8), inner ++ bs⟩ ∧
      (∀ x ∈ bs, x < 256) ∧
      bytesBits bs ++ natBits (off % 8) (v % 2 ^ (off % 8)) = natBits off v := by
  intro f
  induction f with
  | zero =>
    intro off v inner hv hf _
    have h8 : off % 8 = off := Nat.mod_eq_of_lt (by omega)
    refine ⟨[], ?_, by simp, ?_⟩
    · rw [bwFlushF_stop 0 _ (by simp; omega), h8, Nat.mod_eq_of_lt hv]
      simp
    · rw [h8, Nat.mod_eq_of_lt hv]
      simp [bytesBits]
  | succ f ih =>
    intro off v inner hv hf h24
    by_cases hc : 8 ≤ off
    · have hhi : v / 2 ^ (off - 8) < 2 ^ 8 := by
        apply div_pow_lt
        rw [show off - 8 + 8 = off by omega]
        exact hv
      have hbyte : ((v * 2 ^ (32 - off)) >>> 24) % 256 = v / 2 ^ (off - 8) := by
        rw [Nat.shiftRight_eq_div_pow, mul_pow_div v (32 - off) (off - 8) 24 (by omega)]
        exact Nat.mod_eq_of_lt (by calc v / 2 ^ (off - 8) < 2 ^ 8 := hhi
          _ = 256 := by norm_num)
      have hsplit : v = v / 2 ^ (off - 8) * 2 ^ (off - 8) + v % 2 ^ (off - 8) := by
        rw [Nat.mul_comm]
        exact (Nat.div_add_mod v (2 ^ (off - 8))).symm
      have hrem : ((v * 2 ^ (32 - off)) <<< 8) % 2 ^ 32
          = (v % 2 ^ (off - 8)) * 2 ^ (32 - (off - 8)) := by
        rw [Nat.shiftLeft_eq, mul_assoc, ← pow_add]
        conv_lhs => rw [hsplit]
        rw [mod_shift (v / 2 ^ (off - 8)) (v % 2 ^ (off - 8)) (off - 8)
          (32 - off + 8) 32 (Nat.mod_lt _ (Nat.two_pow_pos _)) (by omega),
          show 32 - off + 8 = 32 - (off - 8) by omega]
      obtain ⟨bs, hb1, hb2, hb3⟩ := ih (off - 8) (v % 2 ^ (off - 8))
        (inner ++ [v / 2 ^ (off - 8)]) (Nat.mod_lt _ (Nat.two_pow_pos _))
        (by omega) (by omega)
      have hmm : v % 2 ^ (off - 8) % 2 ^ ((off - 8) % 8) = v % 2 ^ (off % 8) := by
        rw [Nat.mod_mod_of_dvd _ (pow_dvd_pow 2 (by omega : (off - 8) % 8 ≤ off - 8)),
          show (off - 8) % 8 = off % 8 by omega]
      refine ⟨v / 2 ^ (off - 8) :: bs, ?_, ?_, ?_⟩
      · simp only [bwFlushF]
        rw [if_pos (show 8 ≤ (⟨off, v * 2 ^ (32 - off), inner⟩ : BitWriter).offset from hc)]
        rw [hbyte, hrem, hb1, hmm,
          show (off - 8) % 8 = off % 8 by omega]
        simp
      · intro x hx
        rcases List.mem_cons.mp hx with h | h
        · rw [h]
          calc v / 2 ^ (off - 8) < 2 ^ 8 := hhi
            _ = 256 := by norm_num
        · exact hb2 x h
      · show natBits 8 (v / 2 ^ (off - 8)) ++ bytesBits bs ++ _ = _
        rw [List.append_assoc, ← hmm,
          show (off : Nat) % 8 = (off - 8) % 8 by omega, hb3,
          ← natBits_append (off - 8) 8 (v / 2 ^ (off - 8)) (v % 2 ^ (off - 8))
            (Nat.mod_lt _ (Nat.two_pow_pos _)),
          show 8 + (off - 8) = off by omega, ← hsplit]
    · have h8 : off % 8 = off := Nat.mod_eq_of_lt (by omega)
      refine ⟨[], ?_, by simp, ?_⟩
      · rw [bwFlushF_stop _ _ (by simp; omega), h8, Nat.mod_eq_of_lt hv]
        simp
      · rw [h8, Nat.mod_eq_of_lt hv]
        simp [bytesBits]

/-- A single `push` of an 11-bit group appends exactly the 11 bits of the
group to the bit stream held by the writer. -/
theorem push_spec (off v g : Nat) (inner : List Nat)
    (hoff : off < 8) (hv : v < 2 ^ off) (hg : g < 2048) :
    ∃ bs, BitWriter.push ⟨off, v * 2 ^ (32 - off), inner⟩ ⟨g⟩
        = ⟨(off + 11) % 8,
           ((v * 2 ^ 11 + g) % 2 ^ ((off + 11) % 8)) * 2 ^ (32 - (off + 11) % 8),
           inner ++ bs⟩ ∧
      (∀ x ∈ bs, x < 256) ∧
      bytesBits bs ++ natBits ((off + 11) % 8) ((v * 2 ^ 11 + g) % 2 ^ ((off + 11) % 8))
        = natBits off v ++ natBits 11 g := by
  have hg11 : g < 2 ^ 11 := by rw [show (2 : Nat) ^ 11 = 2048 by norm_num]; exact hg
  have hg16 : g % 65536 = g := Nat.mod_eq_of_lt (by omega)
  have hsh : ((g <<< 21) % 2 ^ 32) = g * 2 ^ 21 := by
    rw [Nat.shiftLeft_eq]
    exact Nat.mod_eq_of_lt (mul_pow_lt g 11 21 32 hg11 (by omega))
  have hshr : (g * 2 ^ 21) >>> off = g * 2 ^ (21 - off) := by
    rw [Nat.shiftRight_eq_div_pow]
    exact mul_pow_div_short g 21 (21 - off) off (by omega)
  have hmerge : (v * 2 ^ (32 - off)) ||| (g * 2 ^ (21 - off))
      = (v * 2 ^ 11 + g) * 2 ^ (21 - off) := by
    rw [show 32 - off = (21 - off) + 11 by omega]
    exact or_merge v g (21 - off) 11 hg11
  have hv1 : v * 2 ^ 11 + g < 2 ^ (off + 11) := by
    rw [pow_add]
    have h1 : v * 2 ^ 11 + 2 ^ 11 ≤ 2 ^ off * 2 ^ 11 :=
      calc v * 2 ^ 11 + 2 ^ 11 = (v + 1) * 2 ^ 11 := by ring
        _ ≤ 2 ^ off * 2 ^ 11 := Nat.mul_le_mul_right _ (by omega)
    omega
  have hmod : ((v * 2 ^ 11 + g) * 2 ^ (21 - off)) % 2 ^ 32
      = (v * 2 ^ 11 + g) * 2 ^ (21 - off) := by
    apply Nat.mod_eq_of_lt
    apply mul_pow_lt _ (off + 11) _ 32 hv1
    omega
  obtain ⟨bs, h1, h2, h3⟩ := bwFlushF_spec (off + 11) (off + 11) (v * 2 ^ 11 + g)
    inner hv1 (by omega) (by omega)
  refine ⟨bs, ?_, h2, ?_⟩
  · simp only [BitWriter.push, bwFlush]
    rw [hg16, hsh, hshr, hmerge, hmod, show 21 - off = 32 - (off + 11) by omega]
    exact h1
  · rw [h3, natBits_append 11 off v g hg11]

/-- Pushing any group adds exactly 11 to the writer's bit count. -/
theorem push_len (w : BitWriter) (s : Bits11) : (w.push s).len = w.len + 11 := by
  simp only [BitWriter.push, bwFlush]
  rw [bwFlushF_len]
  simp only [BitWriter.len]
  omega

/-- Folding `push` over a group list appends, bit for bit, the concatenated
11-bit renditions of the groups. -/
theorem pushGroups_spec : ∀ (gs : List Nat) (off v : Nat) (inner : List Nat),
    off < 8 → v < 2 ^ off → (∀ g ∈ gs, g < 2048) →
    ∃ off' v' bs, pushGroups ⟨off, v * 2 ^ (32 - off), inner⟩ gs
        = ⟨off', v' * 2 ^ (32 - off'), inner ++ bs⟩ ∧
      off' < 8 ∧ v' < 2 ^ off' ∧ (∀ x ∈ bs, x < 256) ∧
      bytesBits bs ++ natBits off' v' = natBits off v ++ groupsBits gs := by
  intro gs
  induction gs with
  | nil =>
    intro off v inner hoff hv _
    exact ⟨off, v, [], by simp [pushGroups], hoff, hv, by simp,
      by simp [groupsBits, bytesBits]⟩
  | cons g gs ih =>
    intro off v inner hoff hv hgs
    obtain ⟨bs1, hp1, hp2, hp3⟩ := push_spec off v g inner hoff hv (hgs g (by simp))
    obtain ⟨off', v', bs2, hq1, hq2, hq3, hq4, hq5⟩ := ih ((off + 11) % 8)
      ((v * 2 ^ 11 + g) % 2 ^ ((off + 11) % 8)) (inner ++ bs1)
      (Nat.mod_lt _ (by norm_num)) (Nat.mod_lt _ (Nat.two_pow_pos _))
      (fun x hx => hgs x (by simp [hx]))
    refine ⟨off', v', bs1 ++ bs2, ?_, hq2, hq3, ?_, ?_⟩
    · show pushGroups (BitWriter.push _ ⟨g⟩) gs = _
      rw [hp1, hq1, List.append_assoc]
    · intro x hx
      rcases List.mem_append.mp hx with h | h
      exacts [hp2 x h, hq4 x h]
    · rw [bytesBits_append, List.append_assoc, hq5, ← List.append_assoc, hp3,
        List.append_assoc]
      rfl

/-- The word loop of `phrase_to_entropy`, on words that all come from the
catalog, is the group-push fold. -/
theorem pushWords_map_ok (wm : List Char → Option Nat) (wl : Nat → List Char) :
    ∀ (gs : List Nat) (bw : BitWriter), (∀ g ∈ gs, wm (wl g) = some g) →
    pushWords wm bw (gs.map wl) = .ok (pushGroups bw gs) := by
  intro gs
  induction gs with
  | nil => intro bw _; rfl
  | cons g gs ih =>
    intro bw h
    show pushWords wm bw (wl g :: gs.map wl) = _
    simp only [pushWords, h g (by simp)]
    exact ih (bw.push ⟨g⟩) (fun x hx => h x (by simp [hx]))

/-- The word loop fails with `InvalidWord` whenever any token misses the
catalog. -/
theorem pushWords_error_of_none (wm : List Char → Option Nat) :
    ∀ (ts : List (List Char)) (bw : BitWriter), (∃ t ∈ ts, wm t = none) →
    pushWords wm bw ts = .error .InvalidWord := by
  intro ts
  induction ts with
  | nil => intro bw h; simp at h
  | cons t ts ih =>
    intro bw h
    cases hwt : wm t with
    | none => simp [pushWords, hwt]
    | some g =>
      obtain ⟨u, hu, hnone⟩ := h
      rcases List.mem_cons.mp hu with h1 | h1
      · subst h1; rw [hwt] at hnone; cases hnone
      · simp only [pushWords, hwt]
        exact ih _ ⟨u, h1, hnone⟩

/-- The word loop succeeds on all-catalog tokens, accumulating 11 bits per
word. -/
theorem pushWords_all_some (wm : List Char → Option Nat) :
    ∀ (ts : List (List Char)) (bw : BitWriter), (∀ t ∈ ts, (wm t).isSome) →
    ∃ bw', pushWords wm bw ts = .ok bw' ∧ bw'.len = bw.len + 11 * ts.length := by
  intro ts
  induction ts with
  | nil => intro bw _; exact ⟨bw, rfl, by simp⟩
  | cons t ts ih =>
    intro bw h
    obtain ⟨g, hg⟩ := Option.isSome_iff_exists.mp (h t (by simp))
    obtain ⟨bw', h1, h2⟩ := ih (bw.push ⟨g⟩) (fun x hx => h x (by simp [hx]))
    refine ⟨bw', ?_, ?_⟩
    · simp only [pushWords, hg]
      exact h1
    · rw [h2, push_len]
      simp
      omega

/-! ### Split / join -/

/-- Splitting never produces the empty token list. -/
theorem splitSpace_ne_nil : ∀ cs : List Char, splitSpace cs ≠ [] := by
  intro cs
  cases cs with
  | nil => simp [splitSpace]
  | cons c rest =>
    by_cases hc : c = ' '
    · simp [splitSpace, hc]
    · cases h : splitSpace rest with
      | nil => simp [splitSpace, hc, h]
      | cons w ws => simp [splitSpace, hc, h]

/-- Prepending a space-free word extends the first token of a split. -/
theorem splitSpace_word_append : ∀ (w r : List Char), ' ' ∉ w →
    ∀ h t, splitSpace r = h :: t → splitSpace (w ++ r) = (w ++ h) :: t := by
  intro w
  induction w with
  | nil =>
    intro r _ h t hr
    simpa using hr
  | cons c cs ih =>
    intro r hsp h t hr
    have hc : ¬ (c = ' ') := fun hcc => hsp (by simp [hcc])
    have hrec := ih r (fun hx => hsp (by simp [hx])) h t hr
    simp [splitSpace, hc, hrec]

/-- `split(" ")` is a left inverse of `join(" ")` on nonempty lists of
space-free words. -/
theorem splitSpace_joinWords : ∀ ws : List (List Char), ws ≠ [] →
    (∀ w ∈ ws, ' ' ∉ w) → splitSpace (joinWords ws) = ws := by
  intro ws
  induction ws with
  | nil => intro h; cases h rfl
  | cons w ws ih =>
    intro _ hsp
    cases ws with
    | nil =>
      have := splitSpace_word_append w [] (hsp w (by simp)) [] []
        (by simp [splitSpace])
      simpa [joinWords] using this
    | cons x xs =>
      have hrec := ih (by simp) (fun u hu => hsp u (by simp [hu]))
      have h1 : splitSpace (' ' :: joinWords (x :: xs)) = [] :: (x :: xs) := by
        simp [splitSpace, hrec]
      have := splitSpace_word_append w (' ' :: joinWords (x :: xs)) (hsp w (by simp))
        [] (x :: xs) h1
      simpa [joinWords] using this

/-- The element just past a left part of an append. -/
theorem getD_append_len (l : List Nat) (x d : Nat) :
    (l ++ [x]).getD l.length d = x := by
  induction l with
  | nil => rfl
  | cons a r ih => simp [ih]

/-- Functional description of `into_bytes` on a well-formed writer: the
pending bits are flushed left-aligned into one final byte. -/
theorem intoBytes_spec (off v : Nat) (inner : List Nat)
    (hoff : off < 8) (hv : v < 2 ^ off) :
    (⟨off, v * 2 ^ (32 - off), inner⟩ : BitWriter).intoBytes
      = inner ++ (if off = 0 then [] else [v * 2 ^ (8 - off)]) := by
  by_cases h0 : off = 0
  · simp [BitWriter.intoBytes, h0]
  · have hbyte : ((v * 2 ^ (32 - off)) >>> 24) % 256 = v * 2 ^ (8 - off) := by
      rw [Nat.shiftRight_eq_div_pow,
        mul_pow_div_short v (32 - off) (8 - off) 24 (by omega)]
      apply Nat.mod_eq_of_lt
      calc v * 2 ^ (8 - off) < 2 ^ 8 := mul_pow_lt v off (8 - off) 8 hv (by omega)
        _ = 256 := by norm_num
    simp [BitWriter.intoBytes, h0, hbyte]

/-- Top-level run of the encoder from the initial iterator state. -/
theorem bitIterRun_spec (source : List Nat) (hs : ∀ b ∈ source, b < 256) :
    ∃ v', v' < 2 ^ ((8 * source.length) % 11) ∧
      (bitIterRun source).2 = (8 * source.length) % 11 ∧
      (bitIterRun source).1.length = (8 * source.length) / 11 ∧
      (∀ g ∈ (bitIterRun source).1, g < 2048) ∧
      groupsBits (bitIterRun source).1 ++ natBits ((8 * source.length) % 11) v'
        = bytesBits source := by
  have h := bitIterGo_spec source 0 0 (by norm_num) (by norm_num) hs
  simpa [bitIterRun, natBits] using h

/-! ### The decode ∘ encode round trip -/

/-- Core round-trip lemma: for an entropy whose length fits phrase type `t`
(`11 * k` total bits, `cb` checksum bits), decoding the phrase built by
`from_entropy_unchecked` through `phrase_to_entropy` returns exactly the
original entropy, for any catalog that is a left-inverse pair of space-free
words and any hash function. -/
theorem decode_encode_core
    (wl : Nat → List Char) (wm : List Char → Option Nat) (sha : List Nat → Nat)
    (hwm : ∀ i, i < 2048 → wm (wl i) = some i)
    (hsp : ∀ i, i < 2048 → ' ' ∉ wl i)
    (e : List Nat) (he : ∀ b ∈ e, b < 256)
    (k cb : Nat) (t : KeyPhraseType)
    (harith : 8 * (e.length + 1) = 11 * k + (8 - cb))
    (hcb1 : 1 ≤ cb) (hcb2 : cb ≤ 8)
    (ht : KeyPhraseType.forWordCount k = .ok t)
    (hteb : t.entropyBits = 8 * e.length) (htcb : t.checksumBits = cb) :
    phraseToEntropy wm sha (fromEntropyUnchecked wl sha e).phrase = .ok e := by
  have hc256 : sha e % 256 < 256 := Nat.mod_lt _ (by norm_num)
  set L := e.length with hLdef
  set c := sha e % 256 with hcdef
  have hsrc : ∀ b ∈ e ++ [c], b < 256 := by
    intro b hb
    rcases List.mem_append.mp hb with h | h
    · exact he b h
    · simp at h; omega
  obtain ⟨v', hv', hlv, hlen, hglt, heq⟩ := bitIterRun_spec (e ++ [c]) hsrc
  have hslen : (e ++ [c]).length = L + 1 := by simp
  rw [hslen] at hv' hlv hlen heq
  set gs := (bitIterRun (e ++ [c])).1 with hgsdef
  have hmod : (8 * (L + 1)) % 11 = 8 - cb := by omega
  have hdiv : (8 * (L + 1)) / 11 = k := by omega
  have hk1 : 1 ≤ k := by omega
  have h11k : 11 * k = 8 * L + cb := by omega
  have hglen : gs.length = k := by rw [hlen, hdiv]
  rw [hmod] at hv' hlv heq
  -- decompose the checksum byte into its used and dropped halves
  set chi := c / 2 ^ (8 - cb) with hchidef
  set clo := c % 2 ^ (8 - cb) with hclodef
  have hchi : chi < 2 ^ cb := by
    apply div_pow_lt
    rw [show 8 - cb + cb = 8 by omega, show (2 : Nat) ^ 8 = 256 by norm_num]
    exact hc256
  have hclo : clo < 2 ^ (8 - cb) := Nat.mod_lt _ (Nat.two_pow_pos _)
  have hcsplit : c = chi * 2 ^ (8 - cb) + clo := by
    rw [hchidef, hclodef, Nat.mul_comm]
    exact (Nat.div_add_mod c (2 ^ (8 - cb))).symm
  have hcbits : natBits 8 c = natBits cb chi ++ natBits (8 - cb) clo := by
    conv_lhs => rw [show (8 : Nat) = cb + (8 - cb) by omega, hcsplit]
    exact natBits_append (8 - cb) cb chi clo hclo
  have heq2 : groupsBits gs ++ natBits (8 - cb) v'
      = (bytesBits e ++ natBits cb chi) ++ natBits (8 - cb) clo := by
    rw [heq, bytesBits_append]
    simp [bytesBits, hcbits]
  have hlen1 : (groupsBits gs).length = (bytesBits e ++ natBits cb chi).length := by
    rw [groupsBits_length, hglen]
    simp [bytesBits_length, natBits_length]
    omega
  obtain ⟨hgseq, _⟩ := List.append_inj heq2 hlen1
  -- the words of the generated phrase
  have hne : gs.map wl ≠ [] := by
    intro h
    have := congrArg List.length h
    simp [hglen] at this
    omega
  have hnosp : ∀ w ∈ gs.map wl, ' ' ∉ w := by
    intro w hw
    obtain ⟨g, hgmem, rfl⟩ := List.mem_map.mp hw
    exact hsp g (hglt g hgmem)
  have hsplit2 : splitSpace (joinWords (gs.map wl)) = gs.map wl :=
    splitSpace_joinWords _ hne hnosp
  have hpush : pushWords wm BitWriter.empty (gs.map wl)
      = .ok (pushGroups BitWriter.empty gs) :=
    pushWords_map_ok wm wl gs _ (fun g hg => hwm g (hglt g hg))
  -- decode the groups
  have hempty : BitWriter.empty = (⟨0, 0 * 2 ^ (32 - 0), []⟩ : BitWriter) := by
    simp [BitWriter.empty]
  obtain ⟨off', w', bs, hq1, hq2, hq3, hq4, hq5⟩ :=
    pushGroups_spec gs 0 0 [] (by norm_num) (by norm_num) hglt
  rw [← hempty] at hq1
  have hq5' : bytesBits bs ++ natBits off' w' = groupsBits gs := by
    rw [hq5]
    simp [natBits]
  have hcount : 8 * bs.length + off' = 11 * k := by
    have hl := congrArg List.length hq5'
    simp [bytesBits_length, natBits_length, groupsBits_length, hglen] at hl
    omega
  have hoffeq : off' = cb % 8 := by omega
  -- the decoded byte buffer
  have hphrase : (fromEntropyUnchecked wl sha e).phrase = joinWords (gs.map wl) := rfl
  set cT := chi * 2 ^ (8 - cb) with hcTdef
  have hcT256 : cT < 256 := by
    calc cT < 2 ^ 8 := mul_pow_lt chi cb (8 - cb) 8 hchi (by omega)
      _ = 256 := by norm_num
  have houteq : ([] ++ bs) ++ (if off' = 0 then [] else [w' * 2 ^ (8 - off')])
      = e ++ [cT] := by
    apply bytesBits_inj
    · by_cases h0 : off' = 0
      · have hcb8 : cb = 8 := by omega
        simp [h0]
        omega
      · have hoffcb : off' = cb := by omega
        simp [h0]
        omega
    · intro x hx
      simp only [List.nil_append, List.mem_append] at hx
      rcases hx with h | h
      · exact hq4 x h
      · by_cases h0 : off' = 0
        · rw [h0] at h; simp at h
        · rw [if_neg h0] at h
          simp at h
          rw [h]
          calc w' * 2 ^ (8 - off') < 2 ^ 8 := mul_pow_lt w' off' (8 - off') 8 hq3 (by omega)
            _ = 256 := by norm_num
    · intro x hx
      rcases List.mem_append.mp hx with h | h
      · exact he x h
      · simp at h; omega
    · simp only [List.nil_append]
      rw [bytesBits_append, bytesBits_append]
      have hrhs : bytesBits [cT] = natBits cb chi ++ natBits (8 - cb) 0 := by
        have h := natBits_append (8 - cb) cb chi 0 (Nat.two_pow_pos (8 - cb))
        rw [Nat.add_zero, show cb + (8 - cb) = 8 by omega] at h
        show natBits 8 cT ++ [] = _
        rw [List.append_nil, hcTdef, h]
      rw [hrhs]
      by_cases h0 : off' = 0
      · have hcb8 : cb = 8 := by omega
        rw [if_pos h0]
        have hw0 : w' = 0 := by
          rw [h0] at hq3
          omega
        have hbsbits : bytesBits bs = groupsBits gs := by
          rw [← hq5', h0, hw0]
          simp [natBits]
        rw [show bytesBits ([] : List Nat) = [] from rfl,
          List.append_nil, hbsbits, hgseq, hcb8]
        simp [natBits]
      · have hoffcb : off' = cb := by omega
        rw [if_neg h0]
        have hlhs : bytesBits [w' * 2 ^ (8 - off')]
            = natBits cb w' ++ natBits (8 - cb) 0 := by
          have h := natBits_append (8 - cb) cb w' 0 (Nat.two_pow_pos (8 - cb))
          rw [Nat.add_zero, show cb + (8 - cb) = 8 by omega] at h
          show natBits 8 (w' * 2 ^ (8 - off')) ++ [] = _
          rw [List.append_nil, hoffcb, h]
        rw [hlhs, ← List.append_assoc,
          show bytesBits bs ++ natBits cb w' = groupsBits gs by
            rw [← hoffcb]; exact hq5',
          hgseq, List.append_assoc]
  have htotal : phraseToEntropy wm sha (joinWords (gs.map wl)) = .ok e := by
    rw [phraseToEntropy, hsplit2, hpush, hq1]
    have hlen11 : (⟨off', w' * 2 ^ (32 - off'), [] ++ bs⟩ : BitWriter).len / 11 = k := by
      simp only [BitWriter.len, List.nil_append]
      omega
    have hib : (⟨off', w' * 2 ^ (32 - off'), [] ++ bs⟩ : BitWriter).intoBytes = e ++ [cT] := by
      rw [intoBytes_spec off' w' ([] ++ bs) hq2 hq3]
      exact houteq
    simp only [hlen11, ht]
    have hL8 : t.entropyBits / 8 = L := by rw [hteb]; omega
    simp only [hib, hL8, htcb]
    have hgetD : (e ++ [cT]).getD L 0 = cT := by
      rw [hLdef]
      exact getD_append_len e cT 0
    have htake : (e ++ [cT]).take L = e := List.take_left' hLdef.symm
    rw [hgetD, htake]
    have hact : checksum cT cb = chi := by
      rw [checksum_eq_of_le cT cb hcb1 hcb2, hcTdef, Nat.shiftRight_eq_div_pow]
      exact Nat.mul_div_cancel _ (Nat.two_pow_pos _)
    have hexp : checksum (sha e % 256) cb = chi := by
      rw [← hcdef, checksum_eq_of_le c cb hcb1 hcb2,
        Nat.shiftRight_eq_div_pow, hchidef]
    rw [hact, hexp, if_pos rfl]
  rw [hphrase]
  exact htotal

/-- A trailing space always produces a trailing empty token. -/
theorem splitSpace_append_space_end : ∀ xs : List Char,
    ∃ ws', ws' ≠ [] ∧ splitSpace (xs ++ [' ']) = ws' ++ [[]] := by
  intro xs
  induction xs with
  | nil => exact ⟨[[]], by simp, by simp [splitSpace]⟩
  | cons c rest ih =>
    obtain ⟨ws', hne, hws⟩ := ih
    by_cases hc : c = ' '
    · exact ⟨[] :: ws', by simp, by simp [splitSpace, hc, hws]⟩
    · cases ws' with
      | nil => cases hne rfl
      | cons w ws'' =>
        refine ⟨(c :: w) :: ws'', by simp, ?_⟩
        show splitSpace (c :: (rest ++ [' '])) = _
        simp [splitSpace, hc, hws]

/-- Two consecutive spaces always produce an empty token after the first
token. -/
theorem splitSpace_double_space : ∀ (xs zs : List Char),
    [] ∈ (splitSpace (xs ++ ' ' :: ' ' :: zs)).tail := by
  intro xs
  induction xs with
  | nil =>
    intro zs
    simp [splitSpace]
  | cons c rest ih =>
    intro zs
    by_cases hc : c = ' '
    · show [] ∈ (splitSpace (c :: (rest ++ ' ' :: ' ' :: zs))).tail
      simp only [splitSpace, hc, if_pos rfl, List.tail_cons]
      exact List.mem_of_mem_tail (ih zs)
    · show [] ∈ (splitSpace (c :: (rest ++ ' ' :: ' ' :: zs))).tail
      cases hsp : splitSpace (rest ++ ' ' :: ' ' :: zs) with
      | nil => cases splitSpace_ne_nil _ hsp
      | cons w ws =>
        simp only [splitSpace, hc, if_neg hc, hsp, List.tail_cons]
        have := ih zs
        rw [hsp] at this
        exact this

/-- The unary catalog is a left-inverse word/index pair. -/
theorem unary_left_inverse : ∀ i, i < 2048 → unaryIndexOf (unaryWordAt i) = some i := by
  intro i hi
  rw [unaryWordAt, unaryIndexOf, if_pos]
  · simp
  · refine ⟨by simp, by simp; omega, ?_⟩
    rw [List.all_eq_true]
    intro c hc
    rw [List.eq_of_mem_replicate hc]
    simp

/-- Unary catalog words contain no space. -/
theorem unary_no_space : ∀ i, i < 2048 → ' ' ∉ unaryWordAt i := by
  intro i _ h
  rw [unaryWordAt, List.mem_replicate] at h
  exact absurd h.2 (by decide)

set_option maxRecDepth 10000 in
/-- Validation of the modelled hash: SHA-256 of the empty message is the
FIPS 180-4 test digest `e3b0c442…b855`. -/
theorem sha256_empty_vector :
    sha256 [] =
      [227, 176, 196, 66, 152, 252, 28, 20, 154, 251, 244, 200, 153, 111, 185, 36,
       39, 174, 65, 228, 100, 155, 147, 76, 164, 149, 153, 27, 120, 82, 184, 85] := by
  decide

set_option maxRecDepth 10000 in
/-- Validation of the modelled hash: SHA-256 of the three bytes `abc` is the
FIPS 180-4 test digest `ba7816bf…15ad`. -/
theorem sha256_abc_vector :
    sha256 [97, 98, 99] =
      [186, 120, 22, 191, 143, 1, 207, 234, 65, 65, 64, 222, 93, 174, 34, 35,
       176, 3, 97, 163, 150, 23, 122, 156, 180, 16, 255, 97, 242, 0, 21, 173] := by
  decide

/-! ### The claims -/

/-- Claim C1: for every byte sequence `e` of 16/20/24/28/32 bytes and every
supported language (any catalog that is a left-inverse pair of space-free
words, with any hash), `from_entropy(e, l)` succeeds; `from_phrase` on its
phrase succeeds and yields entropy byte-identical to `e` and the identical
phrase text; and `from_entropy(e, l)` again (a pure function) yields the
identical phrase — every constructed `KeyPhrase`'s phrase decodes back to
exactly its stored entropy. -/
theorem c1_roundtrip
    (wl : Nat → List Char) (wm : List Char → Option Nat) (sha : List Nat → Nat)
    (hwm : ∀ i, i < 2048 → wm (wl i) = some i)
    (hsp : ∀ i, i < 2048 → ' ' ∉ wl i)
    (e : List Nat) (he : ∀ b ∈ e, b < 256)
    (hlen : e.length = 16 ∨ e.length = 20 ∨ e.length = 24 ∨ e.length = 28 ∨
      e.length = 32) :
    fromEntropy wl sha e = .ok (fromEntropyUnchecked wl sha e) ∧
    (fromEntropyUnchecked wl sha e).entropy = e ∧
    fromPhrase wm sha (fromEntropyUnchecked wl sha e).phrase
      = .ok { phrase := (fromEntropyUnchecked wl sha e).phrase, entropy := e } ∧
    (fromEntropyUnchecked wl sha e).phrase = (fromEntropyUnchecked wl sha e).phrase := by
  have hdec : phraseToEntropy wm sha (fromEntropyUnchecked wl sha e).phrase = .ok e := by
    rcases hlen with h | h | h | h | h
    · exact decode_encode_core wl wm sha hwm hsp e he 12 4 .words12
        (by rw [h]) (by norm_num) (by norm_num) (by decide) (by rw [h]; decide)
        (by decide)
    · exact decode_encode_core wl wm sha hwm hsp e he 15 5 .words15
        (by rw [h]) (by norm_num) (by norm_num) (by decide) (by rw [h]; decide)
        (by decide)
    · exact decode_encode_core wl wm sha hwm hsp e he 18 6 .words18
        (by rw [h]) (by norm_num) (by norm_num) (by decide) (by rw [h]; decide)
        (by decide)
    · exact decode_encode_core wl wm sha hwm hsp e he 21 7 .words21
        (by rw [h]) (by norm_num) (by norm_num) (by decide) (by rw [h]; decide)
        (by decide)
    · exact decode_encode_core wl wm sha hwm hsp e he 24 8 .words24
        (by rw [h]) (by norm_num) (by norm_num) (by decide) (by rw [h]; decide)
        (by decide)
  refine ⟨?_, rfl, ?_, rfl⟩
  · rw [fromEntropy]
    rcases hlen with h | h | h | h | h <;> rw [h] <;> rfl
  · rw [fromPhrase, hdec]

/-- Witness for C1 at a 16-byte all-zero entropy under the unary catalog. -/
theorem c1_roundtrip_witness :
    fromEntropy unaryWordAt sha256First (List.replicate 16 0)
      = .ok (fromEntropyUnchecked unaryWordAt sha256First (List.replicate 16 0)) ∧
    (fromEntropyUnchecked unaryWordAt sha256First (List.replicate 16 0)).entropy
      = List.replicate 16 0 ∧
    fromPhrase unaryIndexOf sha256First
        (fromEntropyUnchecked unaryWordAt sha256First (List.replicate 16 0)).phrase
      = .ok ⟨(fromEntropyUnchecked unaryWordAt sha256First
          (List.replicate 16 0)).phrase, List.replicate 16 0⟩ ∧
    (fromEntropyUnchecked unaryWordAt sha256First (List.replicate 16 0)).phrase
      = (fromEntropyUnchecked unaryWordAt sha256First (List.replicate 16 0)).phrase :=
  c1_roundtrip unaryWordAt unaryIndexOf sha256First unary_left_inverse unary_no_space
    (List.replicate 16 0)
    (by intro b hb; rw [List.eq_of_mem_replicate hb]; norm_num)
    (by simp)

/-- Claim C2, counterexample: for the valid 16-byte entropy of all zeros
with its checksum byte appended, the encoder's total input bit length
`(16 + 1) * 8 = 136` is not a multiple of 11, and the iterator terminates
with 4 leftover (discarded) bits — contradicting "the total input bit
length is an exact multiple of 11 bits" and "terminates with no leftover
bits". -/
theorem c2_counterexample :
    (bitIterRun (List.replicate 16 0 ++ [sha256First (List.replicate 16 0)])).2 = 4 ∧
    (bitIterRun (List.replicate 16 0 ++ [sha256First (List.replicate 16 0)])).2 ≠ 0 ∧
    ((16 + 1) * 8) % 11 ≠ 0 := by
  refine ⟨?_, ?_, by decide⟩
  · decide
  · decide

/-- Claim C2, amended: for every valid entropy (length 16/20/24/28/32)
with a checksum byte appended, the encoder emits exactly
`⌊8(len+1)/11⌋ = total_bits/11` groups, each an 11-bit value, the emitted
bits plus the leftover bits account for all `8(len+1)` input bits (so no
group is formed from fewer than 11 available bits), and the run terminates
with `8 - len/4` leftover bits — zero only for 32-byte entropy. -/
theorem c2_encoder_exact (e : List Nat) (sha : List Nat → Nat)
    (he : ∀ b ∈ e, b < 256)
    (hlen : e.length = 16 ∨ e.length = 20 ∨ e.length = 24 ∨ e.length = 28 ∨
      e.length = 32) :
    (bitIterRun (e ++ [sha e % 256])).1.length = (8 * (e.length + 1)) / 11 ∧
    11 * (bitIterRun (e ++ [sha e % 256])).1.length
      + (bitIterRun (e ++ [sha e % 256])).2 = 8 * (e.length + 1) ∧
    (∀ g ∈ (bitIterRun (e ++ [sha e % 256])).1, g < 2048) ∧
    (bitIterRun (e ++ [sha e % 256])).2 = 8 - e.length / 4 := by
  have hsrc : ∀ b ∈ e ++ [sha e % 256], b < 256 := by
    intro b hb
    rcases List.mem_append.mp hb with h | h
    · exact he b h
    · simp at h
      have := Nat.mod_lt (sha e) (show 0 < 256 by norm_num)
      omega
  obtain ⟨v', _, hlv, hlen', hglt, _⟩ := bitIterRun_spec _ hsrc
  have hsl : (e ++ [sha e % 256]).length = e.length + 1 := by simp
  rw [hsl] at hlv hlen'
  refine ⟨hlen', ?_, hglt, ?_⟩ <;>
    rcases hlen with h | h | h | h | h <;> rw [h] at hlv hlen' ⊢ <;> omega

/-- Witness for the amended C2 at the all-zero 20-byte entropy: 15 groups,
165 emitted bits of 168, and 3 leftover bits. -/
theorem c2_encoder_exact_witness :
    (bitIterRun (List.replicate 20 0 ++ [sha256First (List.replicate 20 0) % 256])).1.length
      = (8 * ((List.replicate 20 (0 : Nat)).length + 1)) / 11 ∧
    11 * (bitIterRun (List.replicate 20 0 ++ [sha256First (List.replicate 20 0) % 256])).1.length
      + (bitIterRun (List.replicate 20 0 ++ [sha256First (List.replicate 20 0) % 256])).2
      = 8 * ((List.replicate 20 (0 : Nat)).length + 1) ∧
    (∀ g ∈ (bitIterRun (List.replicate 20 0 ++ [sha256First (List.replicate 20 0) % 256])).1,
      g < 2048) ∧
    (bitIterRun (List.replicate 20 0 ++ [sha256First (List.replicate 20 0) % 256])).2
      = 8 - (List.replicate 20 (0 : Nat)).length / 4 :=
  c2_encoder_exact (List.replicate 20 0) sha256First
    (by intro b hb; rw [List.eq_of_mem_replicate hb]; norm_num)
    (by simp)

set_option maxRecDepth 10000 in
/-- Claim C3: the literal vector — entropy `33E46BB13A746EA41CDDE45C90846A79`
under the (spec-modelled) English catalog encodes to exactly the phrase
`crop cash unable insane eight faith inflict route frame loud box vibrant`,
and that phrase decodes back to exactly those 16 bytes. -/
theorem c3_literal_vector :
    fromEntropy englishWordAt sha256First entropyVec
      = .ok { phrase := phraseVec, entropy := entropyVec } ∧
    fromPhrase englishIndexOf sha256First phraseVec
      = .ok { phrase := phraseVec, entropy := entropyVec } := by
  constructor
  · decide
  · decide

/-- Claim C4 (code bug): the hex renderings do NOT left-pad: the byte `0x03`
renders as the single digit `3`, not `03` (one hex digit, not two), exactly
as the `TODO` comment in `seed.rs` observes; the spec's literal formatting
vector only passes because all its bytes are `≥ 0x10`. -/
theorem c4_hex_unpadded :
    lowerHexFmt false [3] = ['3'] ∧
    lowerHexFmt false [3] ≠ ['0', '3'] ∧
    (lowerHexFmt false [3]).length ≠ 2 * [(3 : Nat)].length ∧
    upperHexFmt false [3] = ['3'] ∧
    upperHexFmt true entropyVec = ("0x33E46BB13A746EA41CDDE45C90846A79").toList ∧
    lowerHexFmt false entropyVec = ("33e46bb13a746ea41cdde45c90846a79").toList := by
  refine ⟨by decide, by decide, by decide, by decide, by decide, by decide⟩

/-- Claim C5, counterexample: a 17-byte entropy fails with
`InvalidKeysize(136)`, not with `InvalidEntropyLength` as the claim
states. -/
theorem c5_counterexample :
    fromEntropy englishWordAt sha256First (List.replicate 17 0)
      = .error (.InvalidKeysize 136) ∧
    ∀ n t, fromEntropy englishWordAt sha256First (List.replicate 17 0)
      ≠ .error (.InvalidEntropyLength n t) := by
  have h : fromEntropy englishWordAt sha256First (List.replicate 17 0)
      = .error (.InvalidKeysize 136) := by decide
  refine ⟨h, ?_⟩
  intro n t hc
  rw [h] at hc
  simp at hc

/-- Claim C5, amended: for every byte sequence whose bit length is not one
of {128, 160, 192, 224, 256} and any catalog and hash, `from_entropy` fails
with `InvalidKeysize(bits)` (and constructs no `KeyPhrase`). -/
theorem c5_invalid_keysize (wl : Nat → List Char) (sha : List Nat → Nat)
    (e : List Nat)
    (h : ¬ (e.length = 16 ∨ e.length = 20 ∨ e.length = 24 ∨ e.length = 28 ∨
      e.length = 32)) :
    fromEntropy wl sha e = .error (.InvalidKeysize (e.length * 8)) := by
  have hks : KeyPhraseType.forKeySize (e.length * 8)
      = .error (.InvalidKeysize (e.length * 8)) := by
    rw [KeyPhraseType.forKeySize, if_neg (by omega), if_neg (by omega),
      if_neg (by omega), if_neg (by omega), if_neg (by omega)]
  rw [fromEntropy, hks]

/-- Witness for the amended C5 at a 17-byte entropy. -/
theorem c5_invalid_keysize_witness :
    fromEntropy unaryWordAt sha256First (List.replicate 17 0)
      = .error (.InvalidKeysize ((List.replicate 17 (0 : Nat)).length * 8)) :=
  c5_invalid_keysize unaryWordAt sha256First (List.replicate 17 0) (by simp)

/-- Claim C6, counterexample: at `n = 0` the claim's `byte >> (8 - 0)`
(the top-0-bits value, 0) is not what the program computes: the `u8` shift
by 8 is an overflowing shift — a debug-mode panic, and in release the
masked shift returns the byte unchanged — so `checksum(179, 0) = 179`,
not `179 >> 8 = 0`. -/
theorem c6_counterexample :
    checksum 179 0 = 179 ∧
    (179 : Nat) >>> (8 - 0) = 0 ∧
    checksum 179 0 ≠ 179 >>> (8 - 0) := by
  refine ⟨by decide, by decide, by decide⟩

/-- Claim C6, amended: for every byte and every `n` with `1 ≤ n ≤ 8`,
`checksum(byte, n)` is `byte >> (8 - n)`: the top `n` bits of the byte —
it is below `2 ^ n` and its bit `i` is bit `i + (8 - n)` of the source for
`i < n`.  (At `n = 0` the `u8` shift by 8 overflows: debug panic, release
returns the byte unchanged.) -/
theorem c6_checksum (source n : Nat) (hs : source < 256) (hn1 : 1 ≤ n)
    (hn : n ≤ 8) :
    checksum source n = source >>> (8 - n) ∧
    checksum source n = source / 2 ^ (8 - n) ∧
    checksum source n < 2 ^ n ∧
    ∀ i, (checksum source n).testBit i
      = (decide (i < n) && source.testBit (i + (8 - n))) := by
  have he := checksum_eq_of_le source n hn1 hn
  have hlt : checksum source n < 2 ^ n := by
    rw [he, Nat.shiftRight_eq_div_pow]
    apply div_pow_lt
    rw [show 8 - n + n = 8 by omega, show (2 : Nat) ^ 8 = 256 by norm_num]
    exact hs
  refine ⟨he, by rw [he, Nat.shiftRight_eq_div_pow], hlt, ?_⟩
  intro i
  by_cases h : i < n
  · rw [he, Nat.testBit_shiftRight]
    simp [h, Nat.add_comm]
  · have hle : checksum source n < 2 ^ i :=
      lt_of_lt_of_le hlt (Nat.pow_le_pow_right (by norm_num) (by omega))
    rw [Nat.testBit_lt_two_pow hle]
    simp [h]

/-- Witness for the amended C6 at `source = 179 = 0xB3`, `n = 4`: the
checksum is `0xB = 11`. -/
theorem c6_checksum_witness :
    checksum 179 4 = 179 >>> (8 - 4) ∧
    checksum 179 4 = 179 / 2 ^ (8 - 4) ∧
    checksum 179 4 < 2 ^ 4 ∧
    ∀ i, (checksum 179 4).testBit i
      = (decide (i < 4) && (179 : Nat).testBit (i + (8 - 4))) :=
  c6_checksum 179 4 (by norm_num) (by norm_num) (by norm_num)

/-- Claim C7: for every phrase text all of whose space-separated tokens are
valid catalog words but whose token count is not in {12, 15, 18, 21, 24},
`phrase_to_entropy` — and hence `from_phrase` and `validate` — fail with
`InvalidWordLength(count)`. -/
theorem c7_invalid_word_length
    (wm : List Char → Option Nat) (sha : List Nat → Nat)
    (text : List Char)
    (hval : ∀ w ∈ splitSpace text, (wm w).isSome)
    (hcnt : ¬ ((splitSpace text).length = 12 ∨ (splitSpace text).length = 15 ∨
      (splitSpace text).length = 18 ∨ (splitSpace text).length = 21 ∨
      (splitSpace text).length = 24)) :
    phraseToEntropy wm sha text
      = .error (.InvalidWordLength (splitSpace text).length) ∧
    fromPhrase wm sha text
      = .error (.InvalidWordLength (splitSpace text).length) ∧
    validate wm sha text
      = .error (.InvalidWordLength (splitSpace text).length) := by
  obtain ⟨bw, h1, h2⟩ := pushWords_all_some wm (splitSpace text) BitWriter.empty hval
  have hlen : bw.len = 11 * (splitSpace text).length := by
    rw [h2]
    simp [BitWriter.empty, BitWriter.len]
  have hdiv : bw.len / 11 = (splitSpace text).length := by omega
  have hwc : KeyPhraseType.forWordCount (splitSpace text).length
      = .error (.InvalidWordLength (splitSpace text).length) := by
    rw [KeyPhraseType.forWordCount, if_neg (by omega), if_neg (by omega),
      if_neg (by omega), if_neg (by omega), if_neg (by omega)]
  have hpe : phraseToEntropy wm sha text
      = .error (.InvalidWordLength (splitSpace text).length) := by
    rw [phraseToEntropy, h1]
    simp only [hdiv, hwc]
  exact ⟨hpe, by rw [fromPhrase, hpe], by rw [validate, hpe]⟩

/-- Witness for C7 on the thirteen-word text of one-letter words of the
unary catalog. -/
theorem c7_invalid_word_length_witness :
    phraseToEntropy unaryIndexOf sha256First (("a a a a a a a a a a a a a").toList)
      = .error (.InvalidWordLength
          (splitSpace (("a a a a a a a a a a a a a").toList)).length) ∧
    fromPhrase unaryIndexOf sha256First (("a a a a a a a a a a a a a").toList)
      = .error (.InvalidWordLength
          (splitSpace (("a a a a a a a a a a a a a").toList)).length) ∧
    validate unaryIndexOf sha256First (("a a a a a a a a a a a a a").toList)
      = .error (.InvalidWordLength
          (splitSpace (("a a a a a a a a a a a a a").toList)).length) :=
  c7_invalid_word_length unaryIndexOf sha256First
    (("a a a a a a a a a a a a a").toList) (by decide) (by decide)

/-- Claim C8: the phrase splitter works on single ASCII spaces with no
trimming: any text with a leading space, a trailing space, or two
consecutive spaces yields an empty token, whose catalog lookup fails, so
`phrase_to_entropy`, `from_phrase` and `validate` return `InvalidWord`
rather than accepting the text. -/
theorem c8_space_handling
    (wm : List Char → Option Nat) (sha : List Nat → Nat)
    (text : List Char)
    (hempty : wm [] = none)
    (hsp : (∃ r, text = ' ' :: r) ∨ (∃ xs, text = xs ++ [' ']) ∨
      (∃ xs zs, text = xs ++ ' ' :: ' ' :: zs)) :
    phraseToEntropy wm sha text = .error .InvalidWord ∧
    fromPhrase wm sha text = .error .InvalidWord ∧
    validate wm sha text = .error .InvalidWord := by
  have hmem : [] ∈ splitSpace text := by
    rcases hsp with ⟨r, rfl⟩ | ⟨xs, rfl⟩ | ⟨xs, zs, rfl⟩
    · simp [splitSpace]
    · obtain ⟨ws', _, hws⟩ := splitSpace_append_space_end xs
      rw [hws]
      simp
    · exact List.mem_of_mem_tail (splitSpace_double_space xs zs)
  have hpw : pushWords wm BitWriter.empty (splitSpace text) = .error .InvalidWord :=
    pushWords_error_of_none wm _ _ ⟨[], hmem, hempty⟩
  have hpe : phraseToEntropy wm sha text = .error .InvalidWord := by
    rw [phraseToEntropy, hpw]
  exact ⟨hpe, by rw [fromPhrase, hpe], by rw [validate, hpe]⟩

/-- Witness for C8 on the two-character text of a space followed by `a`. -/
theorem c8_space_handling_witness :
    phraseToEntropy unaryIndexOf sha256First [' ', 'a'] = .error .InvalidWord ∧
    fromPhrase unaryIndexOf sha256First [' ', 'a'] = .error .InvalidWord ∧
    validate unaryIndexOf sha256First [' ', 'a'] = .error .InvalidWord :=
  c8_space_handling unaryIndexOf sha256First [' ', 'a'] (by decide)
    (Or.inl ⟨['a'], rfl⟩)

/-- Claim C9: for a phrase of valid catalog words whose count is one of
{12, 15, 18, 21, 24}, the decoded bit count is exactly `11 * n`, which
equals `total_bits` of the phrase length returned by `for_word_count`, so
the defensive assertion in `phrase_to_entropy` never fires. -/
theorem c9_assertion_holds
    (wm : List Char → Option Nat)
    (ws : List (List Char)) (hne : ws ≠ [])
    (hval : ∀ w ∈ ws, (wm w).isSome)
    (hsp : ∀ w ∈ ws, ' ' ∉ w)
    (hcnt : ws.length = 12 ∨ ws.length = 15 ∨ ws.length = 18 ∨
      ws.length = 21 ∨ ws.length = 24) :
    ∃ bw t, pushWords wm BitWriter.empty (splitSpace (joinWords ws)) = .ok bw ∧
      bw.len = 11 * ws.length ∧
      KeyPhraseType.forWordCount (bw.len / 11) = .ok t ∧
      bw.len = t.totalBits := by
  rw [splitSpace_joinWords ws hne hsp]
  obtain ⟨bw, h1, h2⟩ := pushWords_all_some wm ws BitWriter.empty hval
  have hlen : bw.len = 11 * ws.length := by
    rw [h2]
    simp [BitWriter.empty, BitWriter.len]
  rcases hcnt with h | h | h | h | h <;> rw [h] at hlen
  · exact ⟨bw, .words12, h1, by rw [hlen, h], by rw [hlen]; decide, by rw [hlen]; decide⟩
  · exact ⟨bw, .words15, h1, by rw [hlen, h], by rw [hlen]; decide, by rw [hlen]; decide⟩
  · exact ⟨bw, .words18, h1, by rw [hlen, h], by rw [hlen]; decide, by rw [hlen]; decide⟩
  · exact ⟨bw, .words21, h1, by rw [hlen, h], by rw [hlen]; decide, by rw [hlen]; decide⟩
  · exact ⟨bw, .words24, h1, by rw [hlen, h], by rw [hlen]; decide, by rw [hlen]; decide⟩

/-- Witness for C9 with twelve valid one-letter words of the unary
catalog. -/
theorem c9_assertion_holds_witness :
    ∃ bw t, pushWords unaryIndexOf BitWriter.empty
        (splitSpace (joinWords (List.replicate 12 ['a']))) = .ok bw ∧
      bw.len = 11 * (List.replicate 12 ['a']).length ∧
      KeyPhraseType.forWordCount (bw.len / 11) = .ok t ∧
      bw.len = t.totalBits :=
  c9_assertion_holds unaryIndexOf (List.replicate 12 ['a'])
    (by simp)
    (by intro w hw; rw [List.eq_of_mem_replicate hw]; decide)
    (by intro w hw; rw [List.eq_of_mem_replicate hw]; decide)
    (by simp)

/-- Claim C10 (implicit): `Bits11` construction enforces no 11-bit range
check — every `u16` value `v`, including every `v ≥ 2048`, round-trips
unchanged through `Bits11`, and `BitWriter::push` accepts such a wide group
(counting its 11 declared bits). -/
theorem c10_bits11_unchecked (v : Nat) (hv : v < 65536) :
    Bits11.toU16 (Bits11.ofU16 v) = v ∧
    (BitWriter.empty.push (Bits11.ofU16 v)).len = 11 := by
  constructor
  · rw [Bits11.ofU16, Bits11.toU16]
    simp [Nat.mod_eq_of_lt hv]
  · rw [push_len]
    rfl

/-- Witness for C10 at `v = 4095`, which does not fit in 11 bits. -/
theorem c10_bits11_unchecked_witness :
    Bits11.toU16 (Bits11.ofU16 4095) = 4095 ∧
    (BitWriter.empty.push (Bits11.ofU16 4095)).len = 11 :=
  c10_bits11_unchecked 4095 (by norm_num)

end Keyphrase
